import Mathlib

set_option maxHeartbeats 1000000
set_option maxRecDepth 10000

/- Shallow embedding of the DRBG benchmark core (drbg.hpp / drbg.cpp):
   a SHA-256 engine, a simplified substitution-permutation block cipher,
   HMAC-SHA256 and the three stateful generators CTR-DRBG, Hash-DRBG and
   HMAC-DRBG.  Bytes are Nat values; the C++ machine types are modelled
   by explicit reductions modulo 2 ^ 8, 2 ^ 32 and 2 ^ 64 at exactly the
   points where the C++ types truncate. -/

/-- Semantics of std::vector<uint8_t>::resize n: truncate to the first n
bytes, padding with zero bytes when the vector is shorter than n. -/
def resizeList (n : Nat) (l : List Nat) : List Nat :=
  l.take n ++ List.replicate (n - l.length) 0

/-- XOR the second list byte-wise into the first over the common prefix,
leaving trailing bytes of the first untouched (the XOR loop of
CTR_DRBG::update, which runs for i < min of the two sizes). -/
def xorInto : List Nat → List Nat → List Nat
  | t, [] => t
  | [], _ => []
  | t :: ts, p :: ps => (t ^^^ p) :: xorInto ts ps

/-- Little-endian byte-array increment: add one to the first byte and
propagate the carry while a byte wraps to zero. -/
def incLE : List Nat → List Nat
  | [] => []
  | b :: rest => if (b + 1) % 256 = 0 then 0 :: incLE rest else ((b + 1) % 256) :: rest

/-- Big-endian byte-array increment with wrap on overflow
(CTR_DRBG::increment_counter and the data increment inside
Hash_DRBG::hashgen, both of which walk from the last byte backwards). -/
def incBE (l : List Nat) : List Nat := (incLE l.reverse).reverse

/-- Big-endian serialization of the low 64 bits of a counter: the
rc_bytes loop of Hash_DRBG::generate and the 64-bit length field
appended by the SHA-256 padding both emit bytes for shifts 56 down
to 0. -/
def be64 (n : Nat) : List Nat :=
  [(n >>> 56) &&& 255, (n >>> 48) &&& 255, (n >>> 40) &&& 255, (n >>> 32) &&& 255,
   (n >>> 24) &&& 255, (n >>> 16) &&& 255, (n >>> 8) &&& 255, n &&& 255]

/-- The 64 SHA-256 round constants (drbg.cpp, SHA256_K). -/
def SHA256_K : List Nat :=
  [0x428a2f98, 0x71374491, 0xb5c0fbcf, 0xe9b5dba5,
   0x3956c25b, 0x59f111f1, 0x923f82a4, 0xab1c5ed5] ++
  [0xd807aa98, 0x12835b01, 0x243185be, 0x550c7dc3,
   0x72be5d74, 0x80deb1fe, 0x9bdc06a7, 0xc19bf174] ++
  [0xe49b69c1, 0xefbe4786, 0x0fc19dc6, 0x240ca1cc,
   0x2de92c6f, 0x4a7484aa, 0x5cb0a9dc, 0x76f988da] ++
  [0x983e5152, 0xa831c66d, 0xb00327c8, 0xbf597fc7,
   0xc6e00bf3, 0xd5a79147, 0x06ca6351, 0x14292967] ++
  [0x27b70a85, 0x2e1b2138, 0x4d2c6dfc, 0x53380d13,
   0x650a7354, 0x766a0abb, 0x81c2c92e, 0x92722c85] ++
  [0xa2bfe8a1, 0xa81a664b, 0xc24b8b70, 0xc76c51a3,
   0xd192e819, 0xd6990624, 0xf40e3585, 0x106aa070] ++
  [0x19a4c116, 0x1e376c08, 0x2748774c, 0x34b0bcb5,
   0x391c0cb3, 0x4ed8aa4a, 0x5b9cca4f, 0x682e6ff3] ++
  [0x748f82ee, 0x78a5636f, 0x84c87814, 0x8cc70208,
   0x90befffa, 0xa4506ceb, 0xbef9a3f7, 0xc67178f2]

/-- The eight SHA-256 initial hash values (drbg.cpp, Hash_DRBG::sha256). -/
def sha256H0 : List Nat :=
  [0x6a09e667, 0xbb67ae85, 0x3c6ef372, 0xa54ff53a,
   0x510e527f, 0x9b05688c, 0x1f83d9ab, 0x5be0cd19]

/-- 32-bit rotate right: (x >> n) | (x << (32 - n)) with the left shift
truncated to uint32_t. -/
def rotr (x n : Nat) : Nat := (x >>> n) ||| ((x <<< (32 - n)) % 2 ^ 32)

/-- SHA-256 ch: (x & y) ^ (~x & z); uint32 complement is XOR with the
all-ones 32-bit mask. -/
def ch (x y z : Nat) : Nat := (x &&& y) ^^^ ((x ^^^ 0xffffffff) &&& z)

/-- SHA-256 maj: (x & y) ^ (x & z) ^ (y & z). -/
def maj (x y z : Nat) : Nat := (x &&& y) ^^^ (x &&& z) ^^^ (y &&& z)

/-- SHA-256 big sigma 0. -/
def sigma0 (x : Nat) : Nat := rotr x 2 ^^^ rotr x 13 ^^^ rotr x 22

/-- SHA-256 big sigma 1. -/
def sigma1 (x : Nat) : Nat := rotr x 6 ^^^ rotr x 11 ^^^ rotr x 25

/-- SHA-256 small gamma 0. -/
def gamma0 (x : Nat) : Nat := rotr x 7 ^^^ rotr x 18 ^^^ (x >>> 3)

/-- SHA-256 small gamma 1. -/
def gamma1 (x : Nat) : Nat := rotr x 17 ^^^ rotr x 19 ^^^ (x >>> 10)

/-- Pack a byte list into big-endian 32-bit words (the first 16 words of
the SHA-256 message schedule). -/
def bytesToWords : List Nat → List Nat
  | b0 :: b1 :: b2 :: b3 :: rest =>
      ((b0 <<< 24) ||| (b1 <<< 16) ||| (b2 <<< 8) ||| b3) :: bytesToWords rest
  | _ => []

/-- Body of the schedule-extension loop, run once per index i = 16..63,
appending w[i] = gamma1 w[i-2] + w[i-7] + gamma0 w[i-15] + w[i-16]
(mod 2^32); the list length is the next index to fill. -/
def scheduleLoop : Nat → List Nat → List Nat
  | 0, w => w
  | k + 1, w =>
      scheduleLoop k (w ++ [(gamma1 (w.getD (w.length - 2) 0) + w.getD (w.length - 7) 0 +
        gamma0 (w.getD (w.length - 15) 0) + w.getD (w.length - 16) 0) % 2 ^ 32])

/-- Extend the 16-word schedule to 64 words (48 loop iterations). -/
def extendSchedule (w : List Nat) : List Nat := scheduleLoop 48 w

/-- The eight 32-bit working variables a..h of the compression loop. -/
structure Hs where
  a : Nat
  b : Nat
  c : Nat
  d : Nat
  e : Nat
  f : Nat
  g : Nat
  hh : Nat

/-- One round of the SHA-256 compression function. -/
def roundFn (w : List Nat) (i : Nat) (s : Hs) : Hs :=
  let t1 := (s.hh + sigma1 s.e + ch s.e s.f s.g + SHA256_K.getD i 0 + w.getD i 0) % 2 ^ 32
  let t2 := (sigma0 s.a + maj s.a s.b s.c) % 2 ^ 32
  ⟨(t1 + t2) % 2 ^ 32, s.a, s.b, s.c, (s.d + t1) % 2 ^ 32, s.e, s.f, s.g⟩

/-- Process one 64-byte block: build the schedule, run 64 rounds from the
current chaining value h, and add the working variables back into h. -/
def processBlock (h : List Nat) (block : List Nat) : List Nat :=
  let w := extendSchedule (bytesToWords block)
  let s0 : Hs := ⟨h.getD 0 0, h.getD 1 0, h.getD 2 0, h.getD 3 0,
                  h.getD 4 0, h.getD 5 0, h.getD 6 0, h.getD 7 0⟩
  let s := (List.range 64).foldl (fun st i => roundFn w i st) s0
  [(h.getD 0 0 + s.a) % 2 ^ 32, (h.getD 1 0 + s.b) % 2 ^ 32,
   (h.getD 2 0 + s.c) % 2 ^ 32, (h.getD 3 0 + s.d) % 2 ^ 32,
   (h.getD 4 0 + s.e) % 2 ^ 32, (h.getD 5 0 + s.f) % 2 ^ 32,
   (h.getD 6 0 + s.g) % 2 ^ 32, (h.getD 7 0 + s.hh) % 2 ^ 32]

/-- The chunk loop of sha256: one iteration per 64-byte block, folding
processBlock over the chaining value (for chunk = 0; chunk < size;
chunk += 64). -/
def blocksLoop : Nat → List Nat → List Nat → List Nat
  | 0, _, h => h
  | k + 1, bytes, h => blocksLoop k (bytes.drop 64) (processBlock h (bytes.take 64))

/-- Serialize one 32-bit word as four big-endian bytes
((h >> 24) & 0xFF down to h & 0xFF). -/
def wordBytes (x : Nat) : List Nat :=
  [(x >>> 24) &&& 255, (x >>> 16) &&& 255, (x >>> 8) &&& 255, x &&& 255]

/-- Hash_DRBG::sha256: pad with 0x80, zero bytes until the length is
56 mod 64, and the original bit length as 64-bit big-endian (the zero
count below is exactly the number of pushes the padding loop makes);
then fold the compression function over the 64-byte blocks and
serialize the eight accumulators big-endian. -/
def sha256 (data : List Nat) : List Nat :=
  let bitLen := (8 * data.length) % 2 ^ 64
  let zeros := (120 - (data.length + 1) % 64) % 64
  let padded := data ++ 0x80 :: (List.replicate zeros 0 ++ be64 bitLen)
  List.flatten ((blocksLoop (padded.length / 64) padded sha256H0).map wordBytes)

/-- Claim C2: sha256 applied to the empty byte sequence returns exactly
the 32-byte digest e3b0c442...b855. -/
theorem sha256_empty_digest :
    sha256 [] =
      [0xe3, 0xb0, 0xc4, 0x42, 0x98, 0xfc, 0x1c, 0x14,
       0x9a, 0xfb, 0xf4, 0xc8, 0x99, 0x6f, 0xb9, 0x24,
       0x27, 0xae, 0x41, 0xe4, 0x64, 0x9b, 0x93, 0x4c,
       0xa4, 0x95, 0x99, 0x1b, 0x78, 0x52, 0xb8, 0x55] := by
  decide

-- ===========================================================================
-- Simplified SPN block cipher (CTR_DRBG::encrypt_block)
-- ===========================================================================

/-- The fixed 256-entry substitution table (CTR_DRBG::SBOX, the standard
AES S-box values). -/
def SBOX : List Nat :=
  [0x63, 0x7c, 0x77, 0x7b, 0xf2, 0x6b, 0x6f, 0xc5, 0x30, 0x01, 0x67, 0x2b, 0xfe, 0xd7, 0xab, 0x76,
   0xca, 0x82, 0xc9, 0x7d, 0xfa, 0x59, 0x47, 0xf0, 0xad, 0xd4, 0xa2, 0xaf, 0x9c, 0xa4, 0x72, 0xc0,
   0xb7, 0xfd, 0x93, 0x26, 0x36, 0x3f, 0xf7, 0xcc, 0x34, 0xa5, 0xe5, 0xf1, 0x71, 0xd8, 0x31, 0x15,
   0x04, 0xc7, 0x23, 0xc3, 0x18, 0x96, 0x05, 0x9a, 0x07, 0x12, 0x80, 0xe2, 0xeb, 0x27, 0xb2, 0x75,
   0x09, 0x83, 0x2c, 0x1a, 0x1b, 0x6e, 0x5a, 0xa0, 0x52, 0x3b, 0xd6, 0xb3, 0x29, 0xe3, 0x2f, 0x84,
   0x53, 0xd1, 0x00, 0xed, 0x20, 0xfc, 0xb1, 0x5b, 0x6a, 0xcb, 0xbe, 0x39, 0x4a, 0x4c, 0x58, 0xcf,
   0xd0, 0xef, 0xaa, 0xfb, 0x43, 0x4d, 0x33, 0x85, 0x45, 0xf9, 0x02, 0x7f, 0x50, 0x3c, 0x9f, 0xa8,
   0x51, 0xa3, 0x40, 0x8f, 0x92, 0x9d, 0x38, 0xf5, 0xbc, 0xb6, 0xda, 0x21, 0x10, 0xff, 0xf3, 0xd2,
   0xcd, 0x0c, 0x13, 0xec, 0x5f, 0x97, 0x44, 0x17, 0xc4, 0xa7, 0x7e, 0x3d, 0x64, 0x5d, 0x19, 0x73,
   0x60, 0x81, 0x4f, 0xdc, 0x22, 0x2a, 0x90, 0x88, 0x46, 0xee, 0xb8, 0x14, 0xde, 0x5e, 0x0b, 0xdb,
   0xe0, 0x32, 0x3a, 0x0a, 0x49, 0x06, 0x24, 0x5c, 0xc2, 0xd3, 0xac, 0x62, 0x91, 0x95, 0xe4, 0x79,
   0xe7, 0xc8, 0x37, 0x6d, 0x8d, 0xd5, 0x4e, 0xa9, 0x6c, 0x56, 0xf4, 0xea, 0x65, 0x7a, 0xae, 0x08,
   0xba, 0x78, 0x25, 0x2e, 0x1c, 0xa6, 0xb4, 0xc6, 0xe8, 0xdd, 0x74, 0x1f, 0x4b, 0xbd, 0x8b, 0x8a,
   0x70, 0x3e, 0xb5, 0x66, 0x48, 0x03, 0xf6, 0x0e, 0x61, 0x35, 0x57, 0xb9, 0x86, 0xc1, 0x1d, 0x9e,
   0xe1, 0xf8, 0x98, 0x11, 0x69, 0xd9, 0x8e, 0x94, 0x9b, 0x1e, 0x87, 0xe9, 0xce, 0x55, 0x28, 0xdf,
   0x8c, 0xa1, 0x89, 0x0d, 0xbf, 0xe6, 0x42, 0x68, 0x41, 0x99, 0x2d, 0x0f, 0xb0, 0x54, 0xbb, 0x16]

/-- Round-key addition: state[i] ^= key[(round * 16 + i) % 32]. -/
def addRoundKey (key : List Nat) (r : Nat) (st : List Nat) : List Nat :=
  (List.range 16).map (fun i => st.getD i 0 ^^^ key.getD ((r * 16 + i) % 32) 0)

/-- SubBytes: every state byte through the substitution table. -/
def subBytes (st : List Nat) : List Nat := st.map (fun b => SBOX.getD b 0)

/-- ShiftRows (simplified permutation): state[i] = temp[(i + i / 4) % 16]
where temp is the pre-permutation state. -/
def shiftRows (st : List Nat) : List Nat :=
  (List.range 16).map (fun i => st.getD ((i + i / 4) % 16) 0)

/-- The sequential column-mixing statements of encrypt_block on one
4-byte column (a, b, c, d): t is the XOR of the column, u saves the
first byte, and each byte is XORed with t ^ ((byte ^ next) << 1),
truncated to uint8_t on assignment.  The first three statements read
only bytes not yet overwritten, the fourth reads u. -/
def mixColumn (a b c d : Nat) : List Nat :=
  let t := a ^^^ b ^^^ c ^^^ d
  let u := a
  [(a ^^^ (t ^^^ ((a ^^^ b) <<< 1))) % 256,
   (b ^^^ (t ^^^ ((b ^^^ c) <<< 1))) % 256,
   (c ^^^ (t ^^^ ((c ^^^ d) <<< 1))) % 256,
   (d ^^^ (t ^^^ ((d ^^^ u) <<< 1))) % 256]

/-- MixColumns over the four columns (loop i = 0, 4, 8, 12). -/
def mixColumns (st : List Nat) : List Nat :=
  mixColumn (st.getD 0 0) (st.getD 1 0) (st.getD 2 0) (st.getD 3 0) ++
  mixColumn (st.getD 4 0) (st.getD 5 0) (st.getD 6 0) (st.getD 7 0) ++
  mixColumn (st.getD 8 0) (st.getD 9 0) (st.getD 10 0) (st.getD 11 0) ++
  mixColumn (st.getD 12 0) (st.getD 13 0) (st.getD 14 0) (st.getD 15 0)

/-- One cipher round: add round key, SubBytes, ShiftRows, and (for
rounds 0..8 only, skipped in the last round) MixColumns. -/
def roundOp (key : List Nat) (r : Nat) (st : List Nat) : List Nat :=
  if r < 9 then mixColumns (shiftRows (subBytes (addRoundKey key r st)))
  else shiftRows (subBytes (addRoundKey key r st))

/-- CTR_DRBG::encrypt_block: 10 rounds of the simplified SPN. -/
def encrypt_block (key : List Nat) (block : List Nat) : List Nat :=
  (List.range 10).foldl (fun st r => roundOp key r st) block

theorem mixColumns_length (st : List Nat) : (mixColumns st).length = 16 := by
  simp [mixColumns, mixColumn]

theorem shiftRows_length (st : List Nat) : (shiftRows st).length = 16 := by
  simp [shiftRows]

theorem roundOp_length (key : List Nat) (r : Nat) (st : List Nat) :
    (roundOp key r st).length = 16 := by
  unfold roundOp
  by_cases h : r < 9 <;> simp [h, mixColumns_length, shiftRows_length]

theorem foldl_roundOp_length (key : List Nat) :
    ∀ (rs : List Nat) (st : List Nat), rs ≠ [] →
      (rs.foldl (fun s r => roundOp key r s) st).length = 16 := by
  intro rs
  induction rs with
  | nil => intro st h; exact absurd rfl h
  | cons r rest ih =>
      intro st _
      rw [List.foldl_cons]
      cases hr : rest with
      | nil => subst hr; simp [roundOp_length]
      | cons x xs => subst hr; exact ih _ (by simp)

theorem encrypt_block_length (key block : List Nat) :
    (encrypt_block key block).length = 16 := by
  unfold encrypt_block
  exact foldl_roundOp_length key (List.range 10) block (by decide)

-- ===========================================================================
-- Output-length lemmas for the hash engine
-- ===========================================================================

theorem processBlock_length (h block : List Nat) : (processBlock h block).length = 8 := rfl

theorem blocksLoop_length :
    ∀ (k : Nat) (bytes h : List Nat), h.length = 8 → (blocksLoop k bytes h).length = 8 := by
  intro k
  induction k with
  | zero => intro bytes h hh; simpa [blocksLoop] using hh
  | succ k ih => intro bytes h _; exact ih _ _ (processBlock_length _ _)

theorem flatten_map_wordBytes :
    ∀ l : List Nat, (List.flatten (l.map wordBytes)).length = 4 * l.length := by
  intro l
  induction l with
  | nil => rfl
  | cons x xs ih => simp [wordBytes, ih]; omega

theorem sha256_length (data : List Nat) : (sha256 data).length = 32 := by
  unfold sha256
  rw [flatten_map_wordBytes, blocksLoop_length]
  rfl

-- ===========================================================================
-- CTR-DRBG (class CTR_DRBG: key 32 bytes, counter 16 bytes, uint64
-- reseed_counter)
-- ===========================================================================

/-- The internal state of CTR_DRBG. -/
structure CtrState where
  key : List Nat
  counter : List Nat
  reseed_counter : Nat

/-- The shared block-accumulation while loop of CTR_DRBG::update and
CTR_DRBG::generate: while fewer than numBytes bytes are accumulated,
increment the counter and append the encryption of the counter.
Returns the accumulated bytes and the final counter. -/
def ctrGenLoop (key counter : List Nat) (numBytes : Nat) (acc : List Nat) :
    List Nat × List Nat :=
  if _h : acc.length < numBytes then
    ctrGenLoop key (incBE counter) numBytes (acc ++ encrypt_block key (incBE counter))
  else (acc, counter)
  termination_by numBytes - acc.length
  decreasing_by simp [encrypt_block_length]; omega

/-- CTR_DRBG::update: generate 48 bytes (3 blocks) of keystream, XOR the
provided data into the prefix, and split the result into the new key
(first 32 bytes) and new counter (next 16 bytes). -/
def ctr_update (key counter provided_data : List Nat) : List Nat × List Nat :=
  let p := ctrGenLoop key counter 48 []
  let temp := xorInto p.1 provided_data
  (temp.take 32, (temp.drop 32).take 16)

/-- CTR_DRBG constructor: zero key and counter, reseed_counter = 1, then
update with the seed. -/
def mkCtr (seed : List Nat) : CtrState :=
  let kc := ctr_update (List.replicate 32 0) (List.replicate 16 0) seed
  ⟨kc.1, kc.2, 1⟩

/-- CTR_DRBG::generate: accumulate ceil(num_bits/8) keystream bytes,
truncate, then update with empty data and bump the uint64 reseed
counter. -/
def ctrGenerate (st : CtrState) (num_bits : Nat) : List Nat × CtrState :=
  let num_bytes := (num_bits + 7) / 8
  let p := ctrGenLoop st.key st.counter num_bytes []
  let kc := ctr_update st.key p.2 []
  (resizeList num_bytes p.1, ⟨kc.1, kc.2, (st.reseed_counter + 1) % 2 ^ 64⟩)

/-- CTR_DRBG::reseed: update with the seed and reset the counter to 1. -/
def ctrReseed (st : CtrState) (seed : List Nat) : CtrState :=
  let kc := ctr_update st.key st.counter seed
  ⟨kc.1, kc.2, 1⟩

-- ===========================================================================
-- Hash-DRBG (class Hash_DRBG: V and C 55 bytes, uint64 reseed_counter)
-- ===========================================================================

/-- The internal state of Hash_DRBG. -/
structure HashState where
  V : List Nat
  C : List Nat
  reseed_counter : Nat

/-- The block loop of Hash_DRBG::hash_df: for each block hash
(counter byte || no_of_bits as 32-bit big-endian || input), where the
uint8_t counter starts at 1 and increments per block. -/
def hashDfLoop (input : List Nat) (no_of_bits : Nat) : Nat → Nat → List Nat → List Nat
  | 0, _, temp => temp
  | k + 1, c, temp =>
      hashDfLoop input no_of_bits k (c + 1)
        (temp ++ sha256 ((c % 256) :: ((no_of_bits >>> 24) &&& 255) ::
          ((no_of_bits >>> 16) &&& 255) :: ((no_of_bits >>> 8) &&& 255) ::
          (no_of_bits &&& 255) :: input))

/-- Hash_DRBG::hash_df: ceil(no_of_bytes/32) hash blocks, concatenated
and resized to no_of_bytes. -/
def hash_df (input : List Nat) (no_of_bits : Nat) : List Nat :=
  let no_of_bytes := (no_of_bits + 7) / 8
  let len := (no_of_bytes + 31) / 32
  resizeList no_of_bytes (hashDfLoop input no_of_bits len 1 [])

/-- The byte-addition loop of Hash_DRBG::add_to_V, working over the
reversed (little-endian) operands: each step adds one byte of V, one
byte of the value while it lasts, and the carry; the carry out of the
last byte of V is dropped with the loop. -/
def addToVLoop : List Nat → List Nat → Nat → List Nat
  | [], _, _ => []
  | v :: vs, [], carry => ((v + carry) % 256) :: addToVLoop vs [] ((v + carry) / 256)
  | v :: vs, x :: xs, carry =>
      ((v + x + carry) % 256) :: addToVLoop vs xs ((v + x + carry) / 256)

/-- Hash_DRBG::add_to_V: big-endian modular addition of value into V,
byte by byte from the rightmost position with carry propagation. -/
def add_to_V (V value : List Nat) : List Nat :=
  (addToVLoop V.reverse value.reverse 0).reverse

/-- The block loop of Hash_DRBG::hashgen: hash data, append the digest,
and increment data as a big-endian byte-array integer. -/
def hashgenLoop : Nat → List Nat → List Nat → List Nat
  | 0, _, W => W
  | m + 1, data, W => hashgenLoop m (incBE data) (W ++ sha256 data)

/-- Hash_DRBG::hashgen: ceil(requested_bits/256) blocks starting from a
copy of V, resized to ceil(requested_bits/8) bytes. -/
def hashgen (V : List Nat) (requested_bits : Nat) : List Nat :=
  let m := (requested_bits + 255) / 256
  resizeList ((requested_bits + 7) / 8) (hashgenLoop m V [])

/-- Hash_DRBG constructor: V = hash_df(seed, 440), C = hash_df(0x00 || V,
440), reseed_counter = 1. -/
def mkHash (seed : List Nat) : HashState :=
  let V := hash_df seed 440
  let C := hash_df (0x00 :: V) 440
  ⟨V, C, 1⟩

/-- Hash_DRBG::generate: output = hashgen(num_bits); then
V += H = sha256(0x03 || V), V += C, V += the 8 big-endian bytes of the
reseed counter, and the uint64 reseed counter is bumped. -/
def hashGenerate (st : HashState) (num_bits : Nat) : List Nat × HashState :=
  let returned_bits := hashgen st.V num_bits
  let H := sha256 (0x03 :: st.V)
  let V1 := add_to_V st.V H
  let V2 := add_to_V V1 st.C
  let V3 := add_to_V V2 (be64 st.reseed_counter)
  (returned_bits, ⟨V3, st.C, (st.reseed_counter + 1) % 2 ^ 64⟩)

/-- Hash_DRBG::reseed: V = hash_df(0x01 || V || seed, 440),
C = hash_df(0x00 || V, 440), reseed_counter = 1. -/
def hashReseed (st : HashState) (seed : List Nat) : HashState :=
  let V := hash_df (0x01 :: (st.V ++ seed)) 440
  let C := hash_df (0x00 :: V) 440
  ⟨V, C, 1⟩

-- ===========================================================================
-- HMAC-DRBG (class HMAC_DRBG: K and V 32 bytes, uint64 reseed_counter)
-- ===========================================================================

/-- The internal state of HMAC_DRBG. -/
structure HmacState where
  K : List Nat
  V : List Nat
  reseed_counter : Nat

/-- HMAC_DRBG::hmac_sha256: zero-pad the key to the 64-byte block size,
XOR with 0x36 / 0x5c for the inner / outer pads, and hash
outerPad || sha256(innerPad || data). -/
def hmac_sha256 (key data : List Nat) : List Nat :=
  let k_pad := resizeList 64 key
  let i_key_pad := k_pad.map (fun b => b ^^^ 0x36)
  let o_key_pad := k_pad.map (fun b => b ^^^ 0x5c)
  let inner_hash := sha256 (i_key_pad ++ data)
  sha256 (o_key_pad ++ inner_hash)

theorem hmac_sha256_length (key data : List Nat) :
    (hmac_sha256 key data).length = 32 := by
  unfold hmac_sha256
  exact sha256_length _

/-- HMAC_DRBG::update: K = HMAC(K, V || 0x00 || providedData);
V = HMAC(K, V); and exactly when providedData is non-empty also
K = HMAC(K, V || 0x01 || providedData); V = HMAC(K, V). -/
def hmacUpdate (K V provided_data : List Nat) : List Nat × List Nat :=
  let K1 := hmac_sha256 K (V ++ 0x00 :: provided_data)
  let V1 := hmac_sha256 K1 V
  if provided_data.isEmpty then (K1, V1)
  else
    let K2 := hmac_sha256 K1 (V1 ++ 0x01 :: provided_data)
    let V2 := hmac_sha256 K2 V1
    (K2, V2)

/-- HMAC_DRBG constructor: K all 0x00, V all 0x01, reseed_counter = 1,
then update with the seed. -/
def mkHmac (seed : List Nat) : HmacState :=
  let kv := hmacUpdate (List.replicate 32 0x00) (List.replicate 32 0x01) seed
  ⟨kv.1, kv.2, 1⟩

/-- The while loop of HMAC_DRBG::generate: V = HMAC(K, V), append V,
until enough bytes are accumulated. Returns the bytes and final V. -/
def hmacGenLoop (K V : List Nat) (numBytes : Nat) (acc : List Nat) :
    List Nat × List Nat :=
  if _h : acc.length < numBytes then
    hmacGenLoop K (hmac_sha256 K V) numBytes (acc ++ hmac_sha256 K V)
  else (acc, V)
  termination_by numBytes - acc.length
  decreasing_by simp [hmac_sha256_length]; omega

/-- HMAC_DRBG::generate: accumulate ceil(num_bits/8) bytes, truncate,
update with empty data, and bump the uint64 reseed counter. -/
def hmacGenerate (st : HmacState) (num_bits : Nat) : List Nat × HmacState :=
  let num_bytes := (num_bits + 7) / 8
  let p := hmacGenLoop st.K st.V num_bytes []
  let kv := hmacUpdate st.K p.2 []
  (resizeList num_bytes p.1, ⟨kv.1, kv.2, (st.reseed_counter + 1) % 2 ^ 64⟩)

/-- HMAC_DRBG::reseed: update with the seed and reset the counter to 1. -/
def hmacReseed (st : HmacState) (seed : List Nat) : HmacState :=
  let kv := hmacUpdate st.K st.V seed
  ⟨kv.1, kv.2, 1⟩

-- ===========================================================================
-- The closed set of generator variants behind the DRBG interface
-- ===========================================================================

/-- The three algorithm variants. -/
inductive Variant where
  | ctr
  | hash
  | hmac
deriving DecidableEq

/-- A generator instance: one of the three states. -/
inductive Drbg where
  | ctr (st : CtrState)
  | hash (st : HashState)
  | hmac (st : HmacState)

/-- Construct a generator of the given variant from a seed. -/
def mkDrbg : Variant → List Nat → Drbg
  | .ctr, seed => .ctr (mkCtr seed)
  | .hash, seed => .hash (mkHash seed)
  | .hmac, seed => .hmac (mkHmac seed)

/-- DRBG::generate through the common interface. -/
def drbgGenerate : Drbg → Nat → List Nat × Drbg
  | .ctr st, n => let p := ctrGenerate st n; (p.1, .ctr p.2)
  | .hash st, n => let p := hashGenerate st n; (p.1, .hash p.2)
  | .hmac st, n => let p := hmacGenerate st n; (p.1, .hmac p.2)

/-- DRBG::reseed through the common interface. -/
def drbgReseed : Drbg → List Nat → Drbg
  | .ctr st, seed => .ctr (ctrReseed st seed)
  | .hash st, seed => .hash (hashReseed st seed)
  | .hmac st, seed => .hmac (hmacReseed st seed)

/-- The internal reseed counter of a generator. -/
def drbgRc : Drbg → Nat
  | .ctr st => st.reseed_counter
  | .hash st => st.reseed_counter
  | .hmac st => st.reseed_counter

/-- The variant tag of a generator. -/
def drbgVariant : Drbg → Variant
  | .ctr _ => .ctr
  | .hash _ => .hash
  | .hmac _ => .hmac

/-- DRBG::getStateSize: KEY_SIZE + BLOCK_SIZE + sizeof(uint64) for CTR,
V.size() + C.size() + sizeof(uint64) for Hash, sizeof(K) + sizeof(V) +
sizeof(uint64) for HMAC. -/
def drbgStateSize : Drbg → Nat
  | .ctr _ => 32 + 16 + 8
  | .hash st => st.V.length + st.C.length + 8
  | .hmac _ => 32 + 32 + 8

/-- A call made by the driver: request num_bits, or reseed with a seed. -/
inductive DrbgCall where
  | gen (numBits : Nat)
  | reseed (seed : List Nat)

/-- Perform one call; a reseed call contributes an empty output record. -/
def drbgStep (st : Drbg) : DrbgCall → List Nat × Drbg
  | .gen n => drbgGenerate st n
  | .reseed seed => ([], drbgReseed st seed)

/-- Drive a generator through a call sequence, collecting the output of
each call in order together with the final state. -/
def runCalls : Drbg → List DrbgCall → List (List Nat) × Drbg
  | st, [] => ([], st)
  | st, c :: cs =>
      let p := drbgStep st c
      let q := runCalls p.2 cs
      (p.1 :: q.1, q.2)

/-- A sequence of generate calls only, keeping just the final state. -/
def genMany (st : Drbg) (ns : List Nat) : Drbg :=
  ns.foldl (fun s n => (drbgGenerate s n).2) st

/-- Claim C1: two independently constructed generators of the same
variant seeded with the same seed and driven through the same sequence
of generate / reseed calls return identical output byte sequences from
every call. -/
theorem drbg_determinism (v : Variant) (seed : List Nat) (calls : List DrbgCall)
    (g1 g2 : Drbg) (h1 : g1 = mkDrbg v seed) (h2 : g2 = mkDrbg v seed) :
    (runCalls g1 calls).1 = (runCalls g2 calls).1 := by
  subst h1; subst h2; rfl

/-- Witness for C1 at a concrete variant, seed and call sequence. -/
theorem drbg_determinism_witness :
    (runCalls (mkDrbg Variant.ctr [1, 2, 3]) [DrbgCall.gen 8, DrbgCall.reseed [4], DrbgCall.gen 16]).1 =
      (runCalls (mkDrbg Variant.ctr [1, 2, 3]) [DrbgCall.gen 8, DrbgCall.reseed [4], DrbgCall.gen 16]).1 :=
  drbg_determinism Variant.ctr [1, 2, 3] [DrbgCall.gen 8, DrbgCall.reseed [4], DrbgCall.gen 16]
    (mkDrbg Variant.ctr [1, 2, 3]) (mkDrbg Variant.ctr [1, 2, 3]) rfl rfl

theorem resizeList_length (n : Nat) (l : List Nat) : (resizeList n l).length = n := by
  simp [resizeList]
  omega

/-- Claim C3: for every variant, every state and every bit count,
generate(numBits) returns a byte vector of length exactly
ceil(numBits / 8). -/
theorem generate_length_exact (st : Drbg) (numBits : Nat) :
    ((drbgGenerate st numBits).1).length = (numBits + 7) / 8 := by
  cases st with
  | ctr s => simp [drbgGenerate, ctrGenerate, resizeList_length]
  | hash s => simp [drbgGenerate, hashGenerate, hashgen, resizeList_length]
  | hmac s => simp [drbgGenerate, hmacGenerate, resizeList_length]

theorem ctrGenLoop_zero (key counter : List Nat) :
    ctrGenLoop key counter 0 [] = ([], counter) := by
  rw [ctrGenLoop]
  simp

theorem hmacGenLoop_zero (K V : List Nat) :
    hmacGenLoop K V 0 [] = ([], V) := by
  rw [hmacGenLoop]
  simp

/-- Claim C9: for every variant, generate(0) returns an empty byte
vector and still performs the end-of-generate state transition — CTR
runs update(empty) on the original key and counter, Hash adds
sha256(0x03 || V), C and the reseed-counter bytes into V, HMAC runs
update(empty) on K and V — and bumps the reseed counter by 1 exactly as
a non-zero request does. -/
theorem generate_zero_empty_still_updates :
    (∀ st : CtrState, ctrGenerate st 0 =
        ([], ⟨(ctr_update st.key st.counter []).1, (ctr_update st.key st.counter []).2,
          (st.reseed_counter + 1) % 2 ^ 64⟩)) ∧
    (∀ st : HashState, hashGenerate st 0 =
        ([], ⟨add_to_V (add_to_V (add_to_V st.V (sha256 (0x03 :: st.V))) st.C)
            (be64 st.reseed_counter), st.C, (st.reseed_counter + 1) % 2 ^ 64⟩)) ∧
    (∀ st : HmacState, hmacGenerate st 0 =
        ([], ⟨(hmacUpdate st.K st.V []).1, (hmacUpdate st.K st.V []).2,
          (st.reseed_counter + 1) % 2 ^ 64⟩)) := by
  refine ⟨fun st => ?_, fun st => ?_, fun st => ?_⟩
  · simp [ctrGenerate, ctrGenLoop_zero, resizeList]
  · simp [hashGenerate, hashgen, hashgenLoop, resizeList]
  · simp [hmacGenerate, hmacGenLoop_zero, resizeList]

theorem drbgGenerate_rc (st : Drbg) (n : Nat) :
    drbgRc ((drbgGenerate st n).2) = (drbgRc st + 1) % 2 ^ 64 := by
  cases st with
  | ctr s => simp [drbgGenerate, ctrGenerate, drbgRc]
  | hash s => simp [drbgGenerate, hashGenerate, drbgRc]
  | hmac s => simp [drbgGenerate, hmacGenerate, drbgRc]

theorem genMany_rc :
    ∀ (ns : List Nat) (st : Drbg), drbgRc st + ns.length < 2 ^ 64 →
      drbgRc (genMany st ns) = drbgRc st + ns.length := by
  intro ns
  induction ns with
  | nil => intro st h; simp [genMany]
  | cons n rest ih =>
      intro st h
      have hstep : genMany st (n :: rest) = genMany ((drbgGenerate st n).2) rest := rfl
      have h1 : drbgRc ((drbgGenerate st n).2) = drbgRc st + 1 := by
        rw [drbgGenerate_rc]
        exact Nat.mod_eq_of_lt (by simp at h; omega)
      rw [hstep, ih _ (by rw [h1]; simp at h ⊢; omega), h1]
      simp
      omega

theorem mkDrbg_rc (v : Variant) (seed : List Nat) : drbgRc (mkDrbg v seed) = 1 := by
  cases v <;> simp [mkDrbg, mkCtr, mkHash, mkHmac, drbgRc]

theorem drbgReseed_rc (st : Drbg) (seed : List Nat) : drbgRc (drbgReseed st seed) = 1 := by
  cases st <;> simp [drbgReseed, ctrReseed, hashReseed, hmacReseed, drbgRc]

/-- Claim C7: the reseed counter equals 1 immediately after construction
and after every reseed, every generate call increments it by exactly 1
(within the uint64 range), and after k generate calls since the last
construction or reseed it equals k + 1. -/
theorem reseed_counter_lifecycle :
    (∀ (v : Variant) (seed : List Nat), drbgRc (mkDrbg v seed) = 1) ∧
    (∀ (st : Drbg) (seed : List Nat), drbgRc (drbgReseed st seed) = 1) ∧
    (∀ (st : Drbg) (n : Nat), drbgRc st + 1 < 2 ^ 64 →
        drbgRc ((drbgGenerate st n).2) = drbgRc st + 1) ∧
    (∀ (v : Variant) (seed : List Nat) (ns : List Nat), ns.length + 1 < 2 ^ 64 →
        drbgRc (genMany (mkDrbg v seed) ns) = ns.length + 1) ∧
    (∀ (st : Drbg) (seed : List Nat) (ns : List Nat), ns.length + 1 < 2 ^ 64 →
        drbgRc (genMany (drbgReseed st seed) ns) = ns.length + 1) := by
  refine ⟨mkDrbg_rc, drbgReseed_rc, fun st n h => ?_, fun v seed ns h => ?_, fun st seed ns h => ?_⟩
  · rw [drbgGenerate_rc]; exact Nat.mod_eq_of_lt h
  · rw [genMany_rc ns _ (by rw [mkDrbg_rc]; omega), mkDrbg_rc]; omega
  · rw [genMany_rc ns _ (by rw [drbgReseed_rc]; omega), drbgReseed_rc]; omega

/-- Witness for C7: concrete states, seeds and call counts satisfying
the uint64 side conditions. -/
theorem reseed_counter_lifecycle_witness :
    (drbgRc (Drbg.ctr ⟨[], [], 5⟩) + 1 < 2 ^ 64 ∧
      drbgRc ((drbgGenerate (Drbg.ctr ⟨[], [], 5⟩) 8).2) = drbgRc (Drbg.ctr ⟨[], [], 5⟩) + 1) ∧
    drbgRc (genMany (mkDrbg Variant.hmac [2]) [8, 16, 0]) = 4 ∧
    drbgRc (genMany (drbgReseed (Drbg.hash ⟨[], [], 9⟩) [7]) [0]) = 2 := by
  refine ⟨⟨by decide, reseed_counter_lifecycle.2.2.1 (Drbg.ctr ⟨[], [], 5⟩) 8 (by decide)⟩, ?_, ?_⟩
  · exact reseed_counter_lifecycle.2.2.2.1 Variant.hmac [2] [8, 16, 0] (by decide)
  · exact reseed_counter_lifecycle.2.2.2.2 (Drbg.hash ⟨[], [], 9⟩) [7] [0] (by decide)

theorem addToVLoop_length :
    ∀ (vs xs : List Nat) (c : Nat), (addToVLoop vs xs c).length = vs.length := by
  intro vs
  induction vs with
  | nil => intro xs c; cases xs <;> rfl
  | cons v vs2 ih =>
      intro xs c
      cases xs with
      | nil => simp [addToVLoop, ih]
      | cons x xs2 => simp [addToVLoop, ih]

theorem add_to_V_length (V value : List Nat) : (add_to_V V value).length = V.length := by
  simp [add_to_V, addToVLoop_length]

theorem hash_df_length (input : List Nat) (bits : Nat) :
    (hash_df input bits).length = (bits + 7) / 8 := by
  simp [hash_df, resizeList_length]

/-- The Hash-DRBG well-formedness the state-size claim depends on: V and
C keep their 55-byte width; the other variants carry fixed arrays. -/
def sizeOk : Drbg → Prop
  | .ctr _ => True
  | .hash st => st.V.length = 55 ∧ st.C.length = 55
  | .hmac _ => True

theorem mkDrbg_sizeOk (v : Variant) (seed : List Nat) : sizeOk (mkDrbg v seed) := by
  cases v with
  | ctr => trivial
  | hash =>
      constructor <;> simp [mkDrbg, mkHash, hash_df_length]
  | hmac => trivial

theorem mkDrbg_variant (v : Variant) (seed : List Nat) : drbgVariant (mkDrbg v seed) = v := by
  cases v <;> rfl

theorem drbgStep_sizeOk (st : Drbg) (c : DrbgCall) (h : sizeOk st) :
    sizeOk ((drbgStep st c).2) ∧ drbgVariant ((drbgStep st c).2) = drbgVariant st := by
  cases st with
  | ctr s => cases c <;> exact ⟨trivial, rfl⟩
  | hmac s => cases c <;> exact ⟨trivial, rfl⟩
  | hash s =>
      obtain ⟨hV, hC⟩ := h
      cases c with
      | gen n =>
          refine ⟨⟨?_, ?_⟩, rfl⟩
          · simp [drbgStep, drbgGenerate, hashGenerate, add_to_V_length, hV]
          · simpa [drbgStep, drbgGenerate, hashGenerate] using hC
      | reseed seed =>
          refine ⟨⟨?_, ?_⟩, rfl⟩ <;>
            simp [drbgStep, drbgReseed, hashReseed, hash_df_length]

theorem runCalls_sizeOk :
    ∀ (calls : List DrbgCall) (st : Drbg), sizeOk st →
      sizeOk ((runCalls st calls).2) ∧ drbgVariant ((runCalls st calls).2) = drbgVariant st := by
  intro calls
  induction calls with
  | nil => intro st h; exact ⟨h, rfl⟩
  | cons c cs ih =>
      intro st h
      have hs := drbgStep_sizeOk st c h
      have hr := ih (drbgStep st c).2 hs.1
      refine ⟨?_, ?_⟩
      · simpa [runCalls] using hr.1
      · rw [show (runCalls st (c :: cs)).2 = (runCalls (drbgStep st c).2 cs).2 from rfl,
          hr.2, hs.2]

/-- Claim C8: getStateSize() returns exactly 56 for CTR-DRBG, 118 for
Hash-DRBG and 72 for HMAC-DRBG for every seed and after every call
sequence; in particular Hash-DRBG's V and C always keep length 55. -/
theorem state_size_invariant (v : Variant) (seed : List Nat) (calls : List DrbgCall) :
    drbgStateSize ((runCalls (mkDrbg v seed) calls).2) =
      (match v with | .ctr => 56 | .hash => 118 | .hmac => 72) ∧
    sizeOk ((runCalls (mkDrbg v seed) calls).2) := by
  have h := runCalls_sizeOk calls (mkDrbg v seed) (mkDrbg_sizeOk v seed)
  have hvar : drbgVariant ((runCalls (mkDrbg v seed) calls).2) = v := by
    rw [h.2, mkDrbg_variant]
  refine ⟨?_, h.1⟩
  have hOk := h.1
  revert hOk hvar
  generalize (runCalls (mkDrbg v seed) calls).2 = final
  intro hOk hvar
  cases v <;> cases final <;> simp_all [drbgVariant, drbgStateSize, sizeOk]

-- ===========================================================================
-- Claim C4: encrypt_block against the spec's round description
-- ===========================================================================

theorem xor_mod_two_pow (x y n : Nat) :
    (x ^^^ y) % 2 ^ n = x % 2 ^ n ^^^ y % 2 ^ n := by
  apply Nat.eq_of_testBit_eq
  intro i
  simp [Nat.testBit_mod_two_pow, Nat.testBit_xor]
  by_cases h : i < n <;> simp [h]

theorem xor_lt_256 (u v : Nat) (hu : u < 256) (hv : v < 256) : u ^^^ v < 256 := by
  have h8 : (2 : Nat) ^ 8 = 256 := by norm_num
  have h : u ^^^ v < 2 ^ 8 := Nat.xor_lt_two_pow (h8 ▸ hu) (h8 ▸ hv)
  exact h8 ▸ h

theorem getD_lt_256 (l : List Nat) (h : ∀ x ∈ l, x < 256) (i : Nat) : l.getD i 0 < 256 := by
  by_cases hi : i < l.length
  · exact h _ (by rw [List.getD_eq_getElem _ _ hi]; exact List.getElem_mem hi)
  · rw [List.getD_eq_getElem?_getD, List.getElem?_eq_none (Nat.le_of_not_lt hi)]
    exact Nat.zero_lt_succ _

theorem sbox_mem_lt : ∀ x ∈ SBOX, x < 256 := by decide

theorem subBytes_mem_lt (st : List Nat) : ∀ x ∈ subBytes st, x < 256 := by
  intro x hx
  simp only [subBytes, List.mem_map] at hx
  obtain ⟨b, _, rfl⟩ := hx
  exact getD_lt_256 SBOX sbox_mem_lt b

theorem shiftRows_sub_mem_lt (st : List Nat) :
    ∀ x ∈ shiftRows (subBytes st), x < 256 := by
  intro x hx
  simp only [shiftRows, List.mem_map] at hx
  obtain ⟨i, _, rfl⟩ := hx
  exact getD_lt_256 _ (subBytes_mem_lt st) _

/-- The column mixing exactly as the spec words it: every byte computed
simultaneously from the column's original values as
b ^ t ^ (((b ^ next) << 1) mod 256). -/
def mixColumnSpec (a b c d : Nat) : List Nat :=
  let t := a ^^^ b ^^^ c ^^^ d
  [a ^^^ t ^^^ (((a ^^^ b) <<< 1) % 256),
   b ^^^ t ^^^ (((b ^^^ c) <<< 1) % 256),
   c ^^^ t ^^^ (((c ^^^ d) <<< 1) % 256),
   d ^^^ t ^^^ (((d ^^^ a) <<< 1) % 256)]

/-- The spec's mixing over the four columns. -/
def mixColumnsSpec (st : List Nat) : List Nat :=
  mixColumnSpec (st.getD 0 0) (st.getD 1 0) (st.getD 2 0) (st.getD 3 0) ++
  mixColumnSpec (st.getD 4 0) (st.getD 5 0) (st.getD 6 0) (st.getD 7 0) ++
  mixColumnSpec (st.getD 8 0) (st.getD 9 0) (st.getD 10 0) (st.getD 11 0) ++
  mixColumnSpec (st.getD 12 0) (st.getD 13 0) (st.getD 14 0) (st.getD 15 0)

/-- One round exactly as the spec words it: XOR with key byte
(r * 16 + i) mod 32, S-box substitution, the permutation
newState[i] = oldState[(i + i / 4) mod 16], and for rounds 0..8 the
simultaneous column mixing. -/
def roundSpec (key : List Nat) (r : Nat) (st : List Nat) : List Nat :=
  if r < 9 then mixColumnsSpec (shiftRows (subBytes (addRoundKey key r st)))
  else shiftRows (subBytes (addRoundKey key r st))

/-- The block encryption exactly as the spec words it: 10 such rounds. -/
def encryptBlockSpec (key : List Nat) (block : List Nat) : List Nat :=
  (List.range 10).foldl (fun st r => roundSpec key r st) block

theorem mixByte_eq (x y t : Nat) (hx : x < 256) (ht : t < 256) :
    (x ^^^ (t ^^^ ((x ^^^ y) <<< 1))) % 256 = x ^^^ t ^^^ (((x ^^^ y) <<< 1) % 256) := by
  have h256 : (256 : Nat) = 2 ^ 8 := by norm_num
  rw [h256, xor_mod_two_pow, xor_mod_two_pow,
    Nat.mod_eq_of_lt (h256 ▸ hx), Nat.mod_eq_of_lt (h256 ▸ ht), Nat.xor_assoc]

theorem mixColumn_eq_spec (a b c d : Nat)
    (ha : a < 256) (hb : b < 256) (hc : c < 256) (hd : d < 256) :
    mixColumn a b c d = mixColumnSpec a b c d := by
  have ht : a ^^^ b ^^^ c ^^^ d < 256 :=
    xor_lt_256 _ _ (xor_lt_256 _ _ (xor_lt_256 _ _ ha hb) hc) hd
  simp only [mixColumn, mixColumnSpec]
  rw [mixByte_eq a b _ ha ht, mixByte_eq b c _ hb ht, mixByte_eq c d _ hc ht,
    mixByte_eq d a _ hd ht]

theorem mixColumns_eq_spec (st : List Nat) (h : ∀ x ∈ st, x < 256) :
    mixColumns st = mixColumnsSpec st := by
  unfold mixColumns mixColumnsSpec
  rw [mixColumn_eq_spec _ _ _ _ (getD_lt_256 st h 0) (getD_lt_256 st h 1)
      (getD_lt_256 st h 2) (getD_lt_256 st h 3),
    mixColumn_eq_spec _ _ _ _ (getD_lt_256 st h 4) (getD_lt_256 st h 5)
      (getD_lt_256 st h 6) (getD_lt_256 st h 7),
    mixColumn_eq_spec _ _ _ _ (getD_lt_256 st h 8) (getD_lt_256 st h 9)
      (getD_lt_256 st h 10) (getD_lt_256 st h 11),
    mixColumn_eq_spec _ _ _ _ (getD_lt_256 st h 12) (getD_lt_256 st h 13)
      (getD_lt_256 st h 14) (getD_lt_256 st h 15)]

theorem roundOp_eq_spec (key : List Nat) (r : Nat) (st : List Nat) :
    roundOp key r st = roundSpec key r st := by
  unfold roundOp roundSpec
  by_cases h : r < 9
  · rw [if_pos h, if_pos h, mixColumns_eq_spec _ (shiftRows_sub_mem_lt _)]
  · rw [if_neg h, if_neg h]

/-- Claim C4: encrypt_block performs exactly the 10 rounds the spec
describes — sliding-window round key XOR, S-box substitution, the
(i + i/4) mod 16 permutation, and for rounds 0..8 the column mixing
computed from the column's original byte values as
b ^ t ^ (((b ^ next) << 1) mod 256). -/
theorem encrypt_block_matches_spec_rounds (key block : List Nat) :
    encrypt_block key block = encryptBlockSpec key block := by
  unfold encrypt_block encryptBlockSpec
  have hfold : ∀ (rs : List Nat) (st : List Nat),
      rs.foldl (fun s r => roundOp key r s) st = rs.foldl (fun s r => roundSpec key r s) st := by
    intro rs
    induction rs with
    | nil => intro st; rfl
    | cons r rest ih => intro st; rw [List.foldl_cons, List.foldl_cons, roundOp_eq_spec, ih]
  exact hfold _ _

-- ===========================================================================
-- Claim C6: HMAC_DRBG::update against the spec's description
-- ===========================================================================

/-- HMAC exactly as the spec words it: zero-pad the 32-byte key to 64
bytes, XOR each byte with 0x36 / 0x5c for the inner / outer pads, and
return sha256(outerPad || sha256(innerPad || data)). -/
def hmacSpec (key data : List Nat) : List Nat :=
  let innerPad := (key ++ List.replicate (64 - key.length) 0).map (fun b => b ^^^ 0x36)
  let outerPad := (key ++ List.replicate (64 - key.length) 0).map (fun b => b ^^^ 0x5c)
  sha256 (outerPad ++ sha256 (innerPad ++ data))

/-- HMAC_DRBG::update exactly as the spec words it:
K = HMAC(K, V || 0x00 || providedData); V = HMAC(K, V); and exactly when
providedData is non-empty also K = HMAC(K, V || 0x01 || providedData);
V = HMAC(K, V). -/
def hmacUpdateSpec (K V provided_data : List Nat) : List Nat × List Nat :=
  let K0 := hmacSpec K (V ++ [0x00] ++ provided_data)
  let V0 := hmacSpec K0 V
  if provided_data.isEmpty then (K0, V0)
  else
    let K1 := hmacSpec K0 (V0 ++ [0x01] ++ provided_data)
    let V1 := hmacSpec K1 V0
    (K1, V1)

theorem hmacSpec_length (key data : List Nat) : (hmacSpec key data).length = 32 :=
  sha256_length _

theorem hmac_sha256_eq_spec (key data : List Nat) (h : key.length ≤ 64) :
    hmac_sha256 key data = hmacSpec key data := by
  unfold hmac_sha256 hmacSpec resizeList
  rw [List.take_of_length_le h]

/-- Claim C6: for a 32-byte key state, HMAC_DRBG::update performs
exactly the spec's sequence of HMAC applications, with the extra pair
of applications exactly when the provided data is non-empty, where
HMAC is the inner/outer-pad construction over sha256. -/
theorem hmac_update_matches_spec (K V provided_data : List Nat) (hK : K.length = 32) :
    hmacUpdate K V provided_data = hmacUpdateSpec K V provided_data := by
  cases provided_data with
  | nil =>
      simp only [hmacUpdate, hmacUpdateSpec, List.isEmpty_nil, if_true]
      rw [show V ++ 0x00 :: ([] : List Nat) = V ++ [0x00] ++ [] by simp,
        hmac_sha256_eq_spec K _ (by omega),
        hmac_sha256_eq_spec _ V (by rw [hmacSpec_length]; omega)]
      simp
  | cons q qs =>
      simp only [hmacUpdate, hmacUpdateSpec, List.isEmpty_cons, if_false]
      rw [show V ++ 0x00 :: q :: qs = V ++ [0x00] ++ (q :: qs) by simp,
        hmac_sha256_eq_spec K _ (by omega),
        hmac_sha256_eq_spec _ V (by rw [hmacSpec_length]; omega)]
      rw [show ∀ W : List Nat, W ++ 0x01 :: q :: qs = W ++ [0x01] ++ (q :: qs) from fun W => by simp,
        hmac_sha256_eq_spec _ _ (by rw [hmacSpec_length]; omega),
        hmac_sha256_eq_spec _ _ (by rw [hmacSpec_length]; omega)]

/-- Witness for C6 at a concrete 32-byte key, value and provided data. -/
theorem hmac_update_matches_spec_witness :
    (List.replicate 32 0x00).length = 32 ∧
    hmacUpdate (List.replicate 32 0x00) (List.replicate 32 0x01) [0x41] =
      hmacUpdateSpec (List.replicate 32 0x00) (List.replicate 32 0x01) [0x41] :=
  ⟨by decide,
    hmac_update_matches_spec (List.replicate 32 0x00) (List.replicate 32 0x01) [0x41]
      (by decide)⟩

-- ===========================================================================
-- Claim C5: add_to_V is big-endian addition modulo 2^(8 * |V|)
-- ===========================================================================

/-- Little-endian numeric value of a byte list. -/
def toNatLE : List Nat → Nat
  | [] => 0
  | b :: t => b + 256 * toNatLE t

/-- Big-endian numeric value of a byte list (the reading the spec uses
for V and the reseed-counter bytes). -/
def toNatBE (l : List Nat) : Nat := toNatLE l.reverse

/-- The k little-endian base-256 digits of n. -/
def natToLE : Nat → Nat → List Nat
  | 0, _ => []
  | k + 1, n => n % 256 :: natToLE k (n / 256)

/-- The k-byte big-endian encoding of n (mod 256^k). -/
def natToBE (k n : Nat) : List Nat := (natToLE k n).reverse

theorem mod_mul_digit (r M K : Nat) (hr : r < 256) (hK : 0 < K) :
    (r + 256 * M) % (256 * K) = r + 256 * (M % K) := by
  have h1 : 256 * M % (256 * K) = 256 * (M % K) := Nat.mul_mod_mul_left 256 M K
  have h2 : r % (256 * K) = r := Nat.mod_eq_of_lt (by
    have h4 : 256 * 1 ≤ 256 * K := Nat.mul_le_mul_left 256 hK
    omega)
  have hMK : M % K < K := Nat.mod_lt M hK
  have h3 : r + 256 * (M % K) < 256 * K :=
    calc r + 256 * (M % K) = 256 * (M % K) + r := Nat.add_comm _ _
      _ < 256 * (M % K) + 256 := Nat.add_lt_add_left hr _
      _ = 256 * (M % K + 1) := (Nat.mul_succ 256 _).symm
      _ ≤ 256 * K := Nat.mul_le_mul_left 256 (Nat.succ_le_of_lt hMK)
  calc (r + 256 * M) % (256 * K)
      = (r % (256 * K) + 256 * M % (256 * K)) % (256 * K) := by rw [Nat.add_mod]
    _ = (r + 256 * (M % K)) % (256 * K) := by rw [h1, h2]
    _ = r + 256 * (M % K) := Nat.mod_eq_of_lt h3

theorem toNatLE_addToVLoop :
    ∀ (vs xs : List Nat) (c : Nat), (∀ b ∈ vs, b < 256) → (∀ b ∈ xs, b < 256) →
      c ≤ 1 → xs.length ≤ vs.length →
      toNatLE (addToVLoop vs xs c) = (toNatLE vs + toNatLE xs + c) % 256 ^ vs.length := by
  intro vs
  induction vs with
  | nil =>
      intro xs c _ _ _ hlen
      have hx : xs = [] := List.eq_nil_of_length_eq_zero (Nat.le_zero.mp hlen)
      subst hx
      simp [addToVLoop, toNatLE]
      omega
  | cons v vs ih =>
      intro xs c hv hx hc hlen
      have hvb : v < 256 := hv v (by simp)
      have hvs : ∀ b ∈ vs, b < 256 := fun b hb => hv b (by simp [hb])
      cases xs with
      | nil =>
          simp only [addToVLoop, toNatLE, List.length_cons]
          rw [ih [] ((v + c) / 256) hvs (by simp) (by omega) (by simp)]
          simp only [toNatLE]
          rw [pow_succ, Nat.mul_comm (256 ^ vs.length) 256]
          have harith : v + 256 * toNatLE vs + 0 + c
              = (v + c) % 256 + 256 * (toNatLE vs + 0 + (v + c) / 256) := by omega
          rw [harith, mod_mul_digit ((v + c) % 256) (toNatLE vs + 0 + (v + c) / 256)
            (256 ^ vs.length) (Nat.mod_lt _ (by omega)) (pow_pos (by omega) vs.length)]
      | cons x xs2 =>
          have hxb : x < 256 := hx x (by simp)
          have hxs : ∀ b ∈ xs2, b < 256 := fun b hb => hx b (by simp [hb])
          simp only [addToVLoop, toNatLE, List.length_cons]
          rw [ih xs2 ((v + x + c) / 256) hvs hxs (by omega) (by simp at hlen; omega)]
          rw [pow_succ, Nat.mul_comm (256 ^ vs.length) 256]
          have harith : v + 256 * toNatLE vs + (x + 256 * toNatLE xs2) + c
              = (v + x + c) % 256 + 256 * (toNatLE vs + toNatLE xs2 + (v + x + c) / 256) := by
            omega
          rw [harith, mod_mul_digit ((v + x + c) % 256)
            (toNatLE vs + toNatLE xs2 + (v + x + c) / 256)
            (256 ^ vs.length) (Nat.mod_lt _ (by omega)) (pow_pos (by omega) vs.length)]

theorem addToVLoop_mem_lt :
    ∀ (vs xs : List Nat) (c : Nat), ∀ b ∈ addToVLoop vs xs c, b < 256 := by
  intro vs
  induction vs with
  | nil => intro xs c b hb; cases xs <;> simp [addToVLoop] at hb
  | cons v vs ih =>
      intro xs c b hb
      cases xs with
      | nil =>
          simp only [addToVLoop, List.mem_cons] at hb
          rcases hb with h | h
          · omega
          · exact ih [] _ b h
      | cons x xs2 =>
          simp only [addToVLoop, List.mem_cons] at hb
          rcases hb with h | h
          · omega
          · exact ih xs2 _ b h

theorem natToLE_toNatLE :
    ∀ l : List Nat, (∀ b ∈ l, b < 256) → natToLE l.length (toNatLE l) = l := by
  intro l
  induction l with
  | nil => intro h; rfl
  | cons b t ih =>
      intro h
      have hb : b < 256 := h b (by simp)
      simp only [List.length_cons, natToLE, toNatLE]
      have h1 : (b + 256 * toNatLE t) % 256 = b := by omega
      have h2 : (b + 256 * toNatLE t) / 256 = toNatLE t := by omega
      rw [h1, h2, ih (fun x hx => h x (by simp [hx]))]

/-- Claim C5: for every state V and every value of length at most |V|
(in particular the 55-byte V with an 8-byte reseed-counter encoding,
where 2^(8*55) = 2^440), add_to_V sets V to the big-endian encoding of
(V + value) mod 2^(8*|V|): bytes are added from the rightmost position
with carry propagation, the shorter operand is implicitly zero-extended
on the left, and the carry out of the most significant byte is
discarded. -/
theorem add_to_V_modular_addition (V value : List Nat)
    (hV : ∀ b ∈ V, b < 256) (hval : ∀ b ∈ value, b < 256)
    (hlen : value.length ≤ V.length) :
    add_to_V V value = natToBE V.length ((toNatBE V + toNatBE value) % 2 ^ (8 * V.length)) := by
  unfold add_to_V natToBE toNatBE
  have hres_lt : ∀ b ∈ addToVLoop V.reverse value.reverse 0, b < 256 := addToVLoop_mem_lt _ _ _
  have hlenres : (addToVLoop V.reverse value.reverse 0).length = V.length := by
    rw [addToVLoop_length, List.length_reverse]
  have hpow : (2 : Nat) ^ (8 * V.length) = 256 ^ V.length := by
    rw [pow_mul]
    norm_num
  have hX : (toNatLE V.reverse + toNatLE value.reverse) % 256 ^ V.length
      = toNatLE (addToVLoop V.reverse value.reverse 0) := by
    have h0 := toNatLE_addToVLoop V.reverse value.reverse 0
      (fun b hb => hV b (List.mem_reverse.mp hb))
      (fun b hb => hval b (List.mem_reverse.mp hb))
      (by omega) (by simpa using hlen)
    rw [List.length_reverse, Nat.add_zero] at h0
    exact h0.symm
  rw [hpow, hX, ← hlenres, natToLE_toNatLE _ hres_lt]

/-- Witness for C5 at a concrete 55-byte V (all 0xff, so every carry
fires) and the 8-byte encoding of a reseed count. -/
theorem add_to_V_modular_addition_witness :
    (∀ b ∈ List.replicate 55 0xff, b < 256) ∧ (∀ b ∈ be64 3, b < 256) ∧
    (be64 3).length ≤ (List.replicate 55 0xff).length ∧
    add_to_V (List.replicate 55 0xff) (be64 3) =
      natToBE (List.replicate 55 0xff).length
        ((toNatBE (List.replicate 55 0xff) + toNatBE (be64 3)) %
          2 ^ (8 * (List.replicate 55 0xff).length)) :=
  ⟨by decide, by decide, by decide,
    add_to_V_modular_addition (List.replicate 55 0xff) (be64 3) (by decide) (by decide)
      (by decide)⟩

-- ===========================================================================
-- Claim C10: CTR-DRBG consumes only the first 48 seed bytes
-- ===========================================================================

theorem xorInto_congr :
    ∀ (t s1 s2 : List Nat), s1.take t.length = s2.take t.length → xorInto t s1 = xorInto t s2 := by
  intro t
  induction t with
  | nil =>
      intro s1 s2 h
      cases s1 <;> cases s2 <;> rfl
  | cons a ts ih =>
      intro s1 s2 h
      cases s1 with
      | nil =>
          cases s2 with
          | nil => rfl
          | cons d ds => simp [List.take] at h
      | cons b bs =>
          cases s2 with
          | nil => simp [List.take] at h
          | cons d ds =>
              simp only [List.length_cons, List.take_succ_cons, List.cons.injEq] at h
              unfold xorInto
              rw [h.1, ih bs ds h.2]

theorem ctrGenLoop48_length :
    ∀ (d : Nat) (key c acc : List Nat), acc.length + d = 48 → 16 ∣ d →
      ((ctrGenLoop key c 48 acc).1).length = 48 := by
  intro d
  induction d using Nat.strong_induction_on with
  | _ d ih =>
      intro key c acc hlen hdvd
      rw [ctrGenLoop]
      by_cases h : acc.length < 48
      · rw [dif_pos h]
        have hd16 : 16 ≤ d := by
          rcases hdvd with ⟨e, rfl⟩
          rcases e with _ | e <;> omega
        exact ih (d - 16) (by omega) key (incBE c) (acc ++ encrypt_block key (incBE c))
          (by rw [List.length_append, encrypt_block_length]; omega)
          (Nat.dvd_sub' hdvd (by norm_num))
      · rw [dif_neg h]
        simp
        omega

theorem ctr_update_prefix48 (key c s1 s2 : List Nat) (h : s1.take 48 = s2.take 48) :
    ctr_update key c s1 = ctr_update key c s2 := by
  have hT : ((ctrGenLoop key c 48 []).1).length = 48 :=
    ctrGenLoop48_length 48 key c [] (by simp) (by norm_num)
  have hx : xorInto (ctrGenLoop key c 48 []).1 s1 = xorInto (ctrGenLoop key c 48 []).1 s2 :=
    xorInto_congr _ s1 s2 (by rw [hT]; exact h)
  simp only [ctr_update]
  rw [hx]

/-- Claim C10: CTR-DRBG construction and reseed depend only on the first
48 bytes of the seed: seeds agreeing on bytes 0..47 yield identical key,
counter and reseed-counter values and hence identical outputs for every
subsequent call sequence. -/
theorem ctr_seed_prefix_48 (s1 s2 : List Nat) (h : s1.take 48 = s2.take 48) :
    mkCtr s1 = mkCtr s2 ∧
    (∀ st : CtrState, ctrReseed st s1 = ctrReseed st s2) ∧
    (∀ calls : List DrbgCall,
      (runCalls (Drbg.ctr (mkCtr s1)) calls).1 = (runCalls (Drbg.ctr (mkCtr s2)) calls).1) := by
  have h1 : mkCtr s1 = mkCtr s2 := by
    simp only [mkCtr]
    rw [ctr_update_prefix48 _ _ _ _ h]
  refine ⟨h1, fun st => ?_, fun calls => ?_⟩
  · simp only [ctrReseed]
    rw [ctr_update_prefix48 _ _ _ _ h]
  · rw [h1]

/-- Witness for C10: two seeds agreeing on their first 48 bytes and
differing beyond them. -/
theorem ctr_seed_prefix_48_witness :
    (List.replicate 48 7 ++ [1]).take 48 = (List.replicate 48 7 ++ [2]).take 48 ∧
    mkCtr (List.replicate 48 7 ++ [1]) = mkCtr (List.replicate 48 7 ++ [2]) :=
  ⟨by decide,
    (ctr_seed_prefix_48 (List.replicate 48 7 ++ [1]) (List.replicate 48 7 ++ [2]) (by decide)).1⟩
